import Mathlib

/-!
Verification of the PageRank estimation engine in pagerank.py.

The embedding is a direct shallow translation of the Python source:

* a Python dict is modelled by Dict: its insertion-ordered key list
  together with a value function (only values at keys are meaningful);
* the corpus (graph) maps each page to the Finset of pages it links to;
* real arithmetic is modelled exactly by the rationals;
* a call that would raise (a missing dict key) returns none;
* the unbounded while-True loop of iterate_pagerank takes explicit fuel,
  and termination is the statement that some fuel amount suffices;
* the random draws of sample_pagerank (the uniformly chosen start page and
  the per-step uniform draws in the half-open unit interval) are injected
  as explicit arguments.
-/

namespace PageRank

/-- A Python dict: insertion-ordered keys plus a value function.  Only the
values at the listed keys are meaningful. -/
structure Dict (V : Type) (β : Type) where
  keys : List V
  val : V → β

/-- The corpus: each page maps to the set of pages it links to
(the shape produced by the crawl function). -/
structure Graph (V : Type) where
  keys : List V
  links : V → Finset V

/-- The graph invariant stated in the spec: keys are distinct (it is a dict),
every linked identifier is itself a key, and no page links to itself. -/
def GraphWF {V : Type} [DecidableEq V] (g : Graph V) : Prop :=
  g.keys.Nodup ∧ ∀ p ∈ g.keys, (∀ q ∈ g.links p, q ∈ g.keys) ∧ p ∉ g.links p

/-- transition_model from pagerank.py.  The lookup corpus[page] raises a
KeyError when the page is not a key, modelled by none. -/
def transition_model {V : Type} [DecidableEq V] (corpus : Graph V) (page : V)
    (damping_factor : ℚ) : Option (Dict V ℚ) :=
  if page ∈ corpus.keys then
    let links := corpus.links page
    let num_pages : ℚ := (corpus.keys.length : ℚ)
    let num_links : ℚ := ((corpus.links page).card : ℚ)
    if (corpus.links page).card = 0 then
      some ⟨corpus.keys, fun _ => 1 / num_pages⟩
    else
      some ⟨corpus.keys, fun p =>
        (if p ∈ links then damping_factor / num_links else 0) +
          (1 - damping_factor) / num_pages⟩
  else none

/-- The inner transform_model helper of sample_pagerank: walk the
transition-model dict in key order, assigning to each page the half-open
cumulative interval from the running threshold to threshold plus its
probability. -/
def transform_model_go {V : Type} (tmVal : V → ℚ) :
    ℚ → List V → List (V × ℚ × ℚ)
  | _, [] => []
  | threshold, p :: rest =>
      (p, threshold, threshold + tmVal p) ::
        transform_model_go tmVal (threshold + tmVal p) rest

/-- transform_model applied to a transition-model dict. -/
def transform_model {V : Type} (tm : Dict V ℚ) : List (V × ℚ × ℚ) :=
  transform_model_go tm.val 0 tm.keys

/-- The selection loop of sample_pagerank: the first page whose cumulative
interval contains the draw r becomes the new page; if no interval matches,
the current page is kept (the for loop finds no hit and falls through). -/
def select_page {V : Type} : List (V × ℚ × ℚ) → ℚ → V → V
  | [], _, page => page
  | (p, lo, hi) :: rest, r, page =>
      if lo ≤ r ∧ r < hi then p else select_page rest r page

/-- The mutable locals of sample_pagerank: the current page, the visit
counters, and the memoized per-page models cache. -/
structure SampleState (V : Type) where
  page : V
  sample : V → ℕ
  models : V → Option (List (V × ℚ × ℚ))

/-- One iteration of the sampling loop body: fill the models cache for the
current page if empty, select the next page from the draw r, and increment
that page's visit counter. -/
def sample_step {V : Type} [DecidableEq V] (corpus : Graph V) (d : ℚ) (r : ℚ)
    (st : SampleState V) : Option (SampleState V) :=
  match st.models st.page with
  | some model =>
      let page1 := select_page model r st.page
      some ⟨page1, fun v => if v = page1 then st.sample v + 1 else st.sample v,
        st.models⟩
  | none =>
      match transition_model corpus st.page d with
      | none => none
      | some tm =>
          let model := transform_model tm
          let models1 := fun v => if v = st.page then some model else st.models v
          let page1 := select_page model r st.page
          some ⟨page1, fun v => if v = page1 then st.sample v + 1 else st.sample v,
            models1⟩

/-- The n-iteration sampling loop (for i in range(n)), threading the draw
index i through the injected stream of uniform draws. -/
def sample_loop {V : Type} [DecidableEq V] (corpus : Graph V) (d : ℚ)
    (draws : ℕ → ℚ) : ℕ → ℕ → SampleState V → Option (SampleState V)
  | 0, _, st => some st
  | steps + 1, i, st =>
      match sample_step corpus d (draws i) st with
      | none => none
      | some st1 => sample_loop corpus d draws steps (i + 1) st1

/-- sample_pagerank from pagerank.py.  The start page (random.choice over the
keys) and the stream of uniform draws (random.random()) are injected.  The
counters start at one for the start page and zero elsewhere, the loop body
runs n times, and the result divides each counter by n over the corpus keys. -/
def sample_pagerank {V : Type} [DecidableEq V] (corpus : Graph V) (d : ℚ)
    (n : ℕ) (start : V) (draws : ℕ → ℚ) : Option (Dict V ℚ) :=
  let st0 : SampleState V :=
    ⟨start, fun p => if p = start then 1 else 0, fun _ => none⟩
  (sample_loop corpus d draws n 0 st0).map fun st =>
    ⟨corpus.keys, fun k => ((st.sample k : ℚ) / (n : ℚ))⟩

/-- The normalization at the top of iterate_pagerank: every page whose link
set is empty is re-mapped to all_pages, the set of all corpus keys. -/
def normalize {V : Type} [DecidableEq V] (g : Graph V) : Graph V :=
  ⟨g.keys, fun k => if (g.links k).card = 0 then g.keys.toFinset else g.links k⟩

/-- One round of the iterate_pagerank recurrence: for each page, the damping
floor plus damping_factor times the lead_pages accumulation over all corpus
pages that link to it.  The right-hand side reads only the previous mapping
pr, never the mapping under construction. -/
def pr_step {V : Type} [DecidableEq V] (keys : List V) (links : V → Finset V)
    (d : ℚ) (pr : V → ℚ) : V → ℚ :=
  fun page =>
    (1 - d) / (keys.length : ℚ) +
      d * (keys.map fun p =>
        if page ∈ links p then pr p / ((links p).card : ℚ) else 0).sum

/-- The convergence test quantity: the Python max over the list of absolute
rank differences.  The fold seed 0 is harmless because every entry is an
absolute value, so for a non-empty key list this is exactly that max. -/
def maxDiff {V : Type} (keys : List V) (pr nxt : V → ℚ) : ℚ :=
  (keys.map fun p => |pr p - nxt p|).foldr max 0

/-- The while-True loop of iterate_pagerank with explicit fuel: compute the
new mapping synchronously from the old one, stop when the max absolute
difference is at most one thousandth, else continue from the new mapping. -/
def pr_loop {V : Type} [DecidableEq V] (keys : List V) (links : V → Finset V)
    (d : ℚ) : ℕ → (V → ℚ) → Option (V → ℚ)
  | 0, _ => none
  | fuel + 1, pr =>
      let new_pr := pr_step keys links d pr
      if maxDiff keys pr new_pr ≤ 1 / 1000 then some new_pr
      else pr_loop keys links d fuel new_pr

/-- iterate_pagerank from pagerank.py: normalize the corpus, start every rank
at 1/num_pages, and run the convergence loop. -/
def iterate_pagerank {V : Type} [DecidableEq V] (g : Graph V) (d : ℚ)
    (fuel : ℕ) : Option (Dict V ℚ) :=
  let c := normalize g
  (pr_loop c.keys c.links d fuel fun _ => 1 / (c.keys.length : ℚ)).map
    fun pr => ⟨c.keys, pr⟩

/-- Stated from the spec, for comparison with the code: the normalized link
set replaces a dangling node's empty outlink set with the full page set. -/
def spec_normalized_links {V : Type} [DecidableEq V] (g : Graph V) (k : V) :
    Finset V :=
  if g.links k = ∅ then g.keys.toFinset else g.links k

/-- Stated from the spec, for comparison with the code: the new rank of a
page is the damping floor plus d times the sum, over pages q whose normalized
outlink set contains the page, of rank of q over outdegree of q. -/
def spec_new_rank {V : Type} [DecidableEq V] (keys : List V)
    (links : V → Finset V) (d : ℚ) (pr : V → ℚ) (page : V) : ℚ :=
  (1 - d) / (keys.length : ℚ) +
    d * ∑ q in keys.toFinset.filter (fun q => page ∈ links q),
      pr q / ((links q).card : ℚ)

/-- The total absolute difference of two rank mappings over the keys: the
one-norm of the per-round delta vector. -/
def l1Diff {V : Type} [DecidableEq V] (keys : List V) (pr nxt : V → ℚ) : ℚ :=
  ∑ p in keys.toFinset, |pr p - nxt p|

/-- The rank mapping held by iterate_pagerank after k rounds of the
recurrence: k synchronous applications of pr_step on the normalized corpus,
starting from the uniform initialization. -/
def pr_rounds {V : Type} [DecidableEq V] (g : Graph V) (d : ℚ) (k : ℕ) :
    V → ℚ :=
  (pr_step g.keys ((normalize g).links) d)^[k] fun _ => 1 / (g.keys.length : ℚ)

/-- Concrete single-page corpus: one page, no links. -/
def g1 : Graph ℕ := ⟨[0], fun _ => ∅⟩

/-- Concrete two-page corpus: the pages link to each other. -/
def g2 : Graph ℕ := ⟨[0, 1], fun n => if n = 0 then {1} else if n = 1 then {0} else ∅⟩

/-- Concrete seven-page corpus: pages 4 and 5 link to 1, pages 6 and 7 link
to 2, pages 1 and 2 link to 3, and 3 links to 4, 5, 6 and 7. -/
def g7 : Graph ℕ :=
  ⟨[1, 2, 3, 4, 5, 6, 7], fun n =>
    if n = 1 then {3} else if n = 2 then {3}
    else if n = 3 then {4, 5, 6, 7}
    else if n = 4 then {1} else if n = 5 then {1}
    else if n = 6 then {2} else if n = 7 then {2} else ∅⟩

theorem list_sum_map_eq_finset_sum {V : Type} [DecidableEq V] (l : List V)
    (hl : l.Nodup) (f : V → ℚ) : (l.map f).sum = ∑ x in l.toFinset, f x :=
  (List.sum_toFinset f hl).symm

theorem length_cast_ne_zero {V : Type} (l : List V) (hne : l ≠ []) :
    ((l.length : ℚ)) ≠ 0 := by
  exact_mod_cast List.length_eq_zero.not.2 hne

/-- C8: calling transition_model with a page that is not a key of the graph
fails fast (the corpus lookup raises), returning no distribution. -/
theorem transition_model_missing_page {V : Type} [DecidableEq V] (g : Graph V)
    (p : V) (d : ℚ) (hp : p ∉ g.keys) : transition_model g p d = none := by
  simp [transition_model, hp]

theorem transition_model_missing_page_witness :
    5 ∉ g2.keys ∧ transition_model g2 5 (17 / 20) = none :=
  ⟨by decide, transition_model_missing_page g2 5 (17 / 20) (by decide)⟩

/-- C1: on a well-formed graph, for a page p that is a key and damping factor
in the open unit interval, transition_model returns a dict whose keys are the
corpus keys, whose values are the uniform distribution when p has no outlinks
and otherwise the additive combination of the link share and the damping
floor, and whose values sum to one. -/
theorem transition_model_correct {V : Type} [DecidableEq V] (g : Graph V)
    (p : V) (d : ℚ) (hwf : GraphWF g) (hp : p ∈ g.keys) (hd0 : 0 < d)
    (hd1 : d < 1) :
    ∃ t : Dict V ℚ, transition_model g p d = some t ∧ t.keys = g.keys ∧
      ((g.links p).card = 0 → ∀ q, t.val q = 1 / (g.keys.length : ℚ)) ∧
      ((g.links p).card ≠ 0 → ∀ q, t.val q =
        (if q ∈ g.links p then d / ((g.links p).card : ℚ) else 0) +
          (1 - d) / (g.keys.length : ℚ)) ∧
      (t.keys.map t.val).sum = 1 := by
  have hNQ : ((g.keys.length : ℚ)) ≠ 0 :=
    length_cast_ne_zero g.keys (List.ne_nil_of_mem hp)
  have hcard : g.keys.toFinset.card = g.keys.length :=
    List.toFinset_card_of_nodup hwf.1
  by_cases hc : (g.links p).card = 0
  · refine ⟨⟨g.keys, fun _ => 1 / (g.keys.length : ℚ)⟩, ?_, rfl,
      fun _ _ => rfl, fun hcn => absurd hc hcn, ?_⟩
    · simp [transition_model, hp, hc]
    · rw [list_sum_map_eq_finset_sum g.keys hwf.1]
      rw [Finset.sum_const, hcard, nsmul_eq_mul]
      exact mul_one_div_cancel hNQ
  · refine ⟨⟨g.keys, fun q =>
      (if q ∈ g.links p then d / ((g.links p).card : ℚ) else 0) +
        (1 - d) / (g.keys.length : ℚ)⟩, ?_, rfl,
      fun hc0 => absurd hc0 hc, fun _ _ => rfl, ?_⟩
    · simp [transition_model, hp, hc]
    · have hLQ : (((g.links p).card : ℚ)) ≠ 0 := by exact_mod_cast hc
      have hsub : g.links p ⊆ g.keys.toFinset := by
        intro q hq
        exact List.mem_toFinset.2 ((hwf.2 p hp).1 q hq)
      rw [list_sum_map_eq_finset_sum g.keys hwf.1]
      rw [Finset.sum_add_distrib]
      have h1 : ∑ q in g.keys.toFinset,
          (if q ∈ g.links p then d / ((g.links p).card : ℚ) else 0) = d := by
        rw [← Finset.sum_filter]
        rw [Finset.filter_mem_eq_inter, Finset.inter_eq_right.2 hsub]
        rw [Finset.sum_const, nsmul_eq_mul]
        rw [mul_comm, div_mul_cancel₀ d hLQ]
      have h2 : ∑ _q in g.keys.toFinset, (1 - d) / (g.keys.length : ℚ) =
          1 - d := by
        rw [Finset.sum_const, hcard, nsmul_eq_mul]
        rw [mul_comm, div_mul_cancel₀ (1 - d) hNQ]
      rw [h1, h2]
      ring

theorem transition_model_correct_witness :
    GraphWF g2 ∧ 0 ∈ g2.keys ∧ ((0 : ℚ) < 17 / 20 ∧ (17 : ℚ) / 20 < 1) ∧
      (∃ t : Dict ℕ ℚ, transition_model g2 0 (17 / 20) = some t ∧
        t.keys = g2.keys ∧
        ((g2.links 0).card = 0 → ∀ q, t.val q = 1 / (g2.keys.length : ℚ)) ∧
        ((g2.links 0).card ≠ 0 → ∀ q, t.val q =
          (if q ∈ g2.links 0 then (17 / 20 : ℚ) / ((g2.links 0).card : ℚ)
            else 0) + (1 - 17 / 20) / (g2.keys.length : ℚ)) ∧
        (t.keys.map t.val).sum = 1) := by
  refine ⟨?_, by decide, ⟨by norm_num, by norm_num⟩, ?_⟩
  · unfold GraphWF
    decide
  · exact transition_model_correct g2 0 (17 / 20)
      (by unfold GraphWF; decide) (by decide) (by norm_num) (by norm_num)

/-- C3: contrary to the claim, sample_pagerank counts the start page and then
performs n further transition steps, so the visit counts sum to n plus one and
the returned values sum to (n+1)/n.  Evaluated at the single-page corpus with
n = 2: the returned values sum to 3/2, not 1. -/
theorem sample_pagerank_sum_exceeds_one :
    (sample_pagerank g1 (17 / 20) 2 0 fun _ => 0).map
      (fun res => (res.keys.map res.val).sum) = some (3 / 2) := by
  simp [sample_pagerank, sample_loop, sample_step, transition_model,
    transform_model, transform_model_go, select_page, g1]
  norm_num

/-- C6: contrary to the claim, on the single-page corpus iterate_pagerank
does return the value one for the page, but sample_pagerank with n = 1
returns the value two (its counters sum to n plus one), not one. -/
theorem single_page_graph_results :
    ((iterate_pagerank g1 (17 / 20) 1).map fun res => res.val 0) = some 1 ∧
    ((sample_pagerank g1 (17 / 20) 1 0 fun _ => 0).map fun res => res.val 0) =
      some 2 := by
  constructor
  · simp [iterate_pagerank, pr_loop, pr_step, maxDiff, normalize, g1]
  · simp [sample_pagerank, sample_loop, sample_step, transition_model,
      transform_model, transform_model_go, select_page, g1]
    norm_num

/-- C2: iterate_pagerank first builds the normalized graph in which every
dangling node's outlink set becomes the full page set, initializes every rank
to 1/N, and each round applies the spec recurrence synchronously: the new
mapping is pr_step of the old one, computed entirely from the previous
round's ranks, and the loop continues from that whole new mapping. -/
theorem iterate_pagerank_follows_spec {V : Type} [DecidableEq V] (g : Graph V)
    (d : ℚ) (hnd : g.keys.Nodup) :
    (∀ k, (normalize g).links k = spec_normalized_links g k) ∧
    ((normalize g).keys = g.keys) ∧
    (∀ pr page, pr_step g.keys ((normalize g).links) d pr page =
      spec_new_rank g.keys ((normalize g).links) d pr page) ∧
    (∀ fuel, iterate_pagerank g d fuel =
      (pr_loop g.keys ((normalize g).links) d fuel
        fun _ => 1 / (g.keys.length : ℚ)).map fun pr => ⟨g.keys, pr⟩) ∧
    (∀ fuel pr, pr_loop g.keys ((normalize g).links) d (fuel + 1) pr =
      if maxDiff g.keys pr (pr_step g.keys ((normalize g).links) d pr) ≤
          1 / 1000 then
        some (pr_step g.keys ((normalize g).links) d pr)
      else pr_loop g.keys ((normalize g).links) d fuel
        (pr_step g.keys ((normalize g).links) d pr)) := by
  refine ⟨?_, rfl, ?_, fun _ => rfl, fun _ _ => rfl⟩
  · intro k
    simp [normalize, spec_normalized_links, Finset.card_eq_zero]
  · intro pr page
    unfold pr_step spec_new_rank
    rw [list_sum_map_eq_finset_sum g.keys hnd, Finset.sum_filter]

theorem iterate_pagerank_follows_spec_witness :
    g2.keys.Nodup ∧
      (∀ k, (normalize g2).links k = spec_normalized_links g2 k) ∧
      ((normalize g2).keys = g2.keys) ∧
      (∀ pr page, pr_step g2.keys ((normalize g2).links) (17 / 20) pr page =
        spec_new_rank g2.keys ((normalize g2).links) (17 / 20) pr page) ∧
      (∀ fuel, iterate_pagerank g2 (17 / 20) fuel =
        (pr_loop g2.keys ((normalize g2).links) (17 / 20) fuel
          fun _ => 1 / (g2.keys.length : ℚ)).map fun pr => ⟨g2.keys, pr⟩) ∧
      (∀ fuel pr,
        pr_loop g2.keys ((normalize g2).links) (17 / 20) (fuel + 1) pr =
        if maxDiff g2.keys pr
            (pr_step g2.keys ((normalize g2).links) (17 / 20) pr) ≤ 1 / 1000 then
          some (pr_step g2.keys ((normalize g2).links) (17 / 20) pr)
        else pr_loop g2.keys ((normalize g2).links) (17 / 20) fuel
          (pr_step g2.keys ((normalize g2).links) (17 / 20) pr)) :=
  ⟨by decide, iterate_pagerank_follows_spec g2 (17 / 20) (by decide)⟩

theorem normalize_links_wf {V : Type} [DecidableEq V] (g : Graph V)
    (hwf : GraphWF g) (hne : g.keys ≠ []) : ∀ q ∈ g.keys,
      (normalize g).links q ⊆ g.keys.toFinset ∧
        ((normalize g).links q).card ≠ 0 := by
  intro q hq
  unfold normalize
  by_cases hc : (g.links q).card = 0
  · simp only [hc, if_pos rfl]
    exact ⟨Finset.Subset.refl _,
      Finset.card_ne_zero_of_mem (List.mem_toFinset.2 hq)⟩
  · simp only [hc, if_neg hc]
    exact ⟨fun x hx => List.mem_toFinset.2 ((hwf.2 q hq).1 x hx), hc⟩

theorem pr_step_sum {V : Type} [DecidableEq V] (keys : List V)
    (links : V → Finset V) (d : ℚ) (pr : V → ℚ) (hnd : keys.Nodup)
    (hne : keys ≠ [])
    (hlk : ∀ q ∈ keys, links q ⊆ keys.toFinset ∧ (links q).card ≠ 0) :
    ∑ p in keys.toFinset, pr_step keys links d pr p =
      (1 - d) + d * ∑ q in keys.toFinset, pr q := by
  have hNQ := length_cast_ne_zero keys hne
  have hcard : keys.toFinset.card = keys.length := List.toFinset_card_of_nodup hnd
  unfold pr_step
  rw [Finset.sum_add_distrib]
  have h1 : ∑ _p in keys.toFinset, (1 - d) / (keys.length : ℚ) = 1 - d := by
    rw [Finset.sum_const, hcard, nsmul_eq_mul, mul_comm, div_mul_cancel₀ _ hNQ]
  rw [h1]
  congr 1
  rw [← Finset.mul_sum]
  congr 1
  calc ∑ p in keys.toFinset, (keys.map fun q =>
          if p ∈ links q then pr q / ((links q).card : ℚ) else 0).sum
      = ∑ p in keys.toFinset, ∑ q in keys.toFinset,
          (if p ∈ links q then pr q / ((links q).card : ℚ) else 0) :=
        Finset.sum_congr rfl fun p _ => list_sum_map_eq_finset_sum keys hnd _
    _ = ∑ q in keys.toFinset, ∑ p in keys.toFinset,
          (if p ∈ links q then pr q / ((links q).card : ℚ) else 0) :=
        Finset.sum_comm
    _ = ∑ q in keys.toFinset, pr q := by
        refine Finset.sum_congr rfl fun q hq => ?_
        have hqk : q ∈ keys := List.mem_toFinset.1 hq
        have hLQ : (((links q).card : ℚ)) ≠ 0 := by
          exact_mod_cast (hlk q hqk).2
        rw [← Finset.sum_filter, Finset.filter_mem_eq_inter,
          Finset.inter_eq_right.2 (hlk q hqk).1, Finset.sum_const,
          nsmul_eq_mul, mul_comm, div_mul_cancel₀ _ hLQ]

theorem pr_loop_sum_one {V : Type} [DecidableEq V] (keys : List V)
    (links : V → Finset V) (d : ℚ) (hnd : keys.Nodup) (hne : keys ≠ [])
    (hlk : ∀ q ∈ keys, links q ⊆ keys.toFinset ∧ (links q).card ≠ 0) :
    ∀ (fuel : ℕ) (pr res : V → ℚ), (∑ p in keys.toFinset, pr p) = 1 →
      pr_loop keys links d fuel pr = some res →
      ∑ p in keys.toFinset, res p = 1 := by
  intro fuel
  induction fuel with
  | zero => intro pr res _ h; exact absurd h (by simp [pr_loop])
  | succ fuel ih =>
      intro pr res hsum h
      have hstep : ∑ p in keys.toFinset, pr_step keys links d pr p = 1 := by
        rw [pr_step_sum keys links d pr hnd hne hlk, hsum]
        ring
      simp only [pr_loop] at h
      split_ifs at h with htest
      · cases h
        exact hstep
      · exact ih (pr_step keys links d pr) res hstep h

theorem init_sum_one {V : Type} [DecidableEq V] (keys : List V)
    (hnd : keys.Nodup) (hne : keys ≠ []) :
    ∑ _p in keys.toFinset, 1 / ((keys.length : ℚ)) = 1 := by
  rw [Finset.sum_const, List.toFinset_card_of_nodup hnd, nsmul_eq_mul]
  exact mul_one_div_cancel (length_cast_ne_zero keys hne)

/-- C4: on a well-formed non-empty graph with damping factor in the open unit
interval, the rank mapping of iterate_pagerank sums to one over the pages
after every round of the recurrence, and so does any returned result. -/
theorem iterate_pagerank_sum_each_round {V : Type} [DecidableEq V]
    (g : Graph V) (d : ℚ) (hwf : GraphWF g) (hne : g.keys ≠ [])
    (hd0 : 0 < d) (hd1 : d < 1) :
    (∀ k : ℕ, ∑ p in g.keys.toFinset, pr_rounds g d k p = 1) ∧
    (∀ fuel res, iterate_pagerank g d fuel = some res →
      ∑ p in res.keys.toFinset, res.val p = 1) := by
  have hlk := normalize_links_wf g hwf hne
  constructor
  · intro k
    induction k with
    | zero => exact init_sum_one g.keys hwf.1 hne
    | succ k ih =>
        unfold pr_rounds at ih ⊢
        rw [Function.iterate_succ_apply']
        rw [pr_step_sum g.keys ((normalize g).links) d _ hwf.1 hne hlk, ih]
        ring
  · intro fuel res hres
    simp only [iterate_pagerank] at hres
    have hk : (normalize g).keys = g.keys := rfl
    rw [hk] at hres
    cases h : pr_loop g.keys ((normalize g).links) d fuel
        (fun _ => 1 / (g.keys.length : ℚ)) with
    | none => rw [h] at hres; exact absurd hres (by simp)
    | some prres =>
        rw [h, Option.map_some'] at hres
        cases hres
        exact pr_loop_sum_one g.keys ((normalize g).links) d hwf.1 hne hlk
          fuel _ prres (init_sum_one g.keys hwf.1 hne) h

theorem iterate_pagerank_sum_each_round_witness :
    GraphWF g2 ∧ g2.keys ≠ [] ∧ ((0 : ℚ) < 17 / 20 ∧ (17 : ℚ) / 20 < 1) ∧
      ((∀ k : ℕ, ∑ p in g2.keys.toFinset, pr_rounds g2 (17 / 20) k p = 1) ∧
       (∀ fuel res, iterate_pagerank g2 (17 / 20) fuel = some res →
         ∑ p in res.keys.toFinset, res.val p = 1)) := by
  refine ⟨by unfold GraphWF; decide, by decide, ⟨by norm_num, by norm_num⟩, ?_⟩
  exact iterate_pagerank_sum_each_round g2 (17 / 20) (by unfold GraphWF; decide)
    (by decide) (by norm_num) (by norm_num)

theorem pr_step_floor {V : Type} [DecidableEq V] (keys : List V)
    (links : V → Finset V) (d : ℚ) (pr : V → ℚ) (hd0 : 0 ≤ d)
    (hpr : ∀ q ∈ keys, 0 ≤ pr q) :
    ∀ page, (1 - d) / (keys.length : ℚ) ≤ pr_step keys links d pr page := by
  intro page
  unfold pr_step
  have hsum : 0 ≤ (keys.map fun p =>
      if page ∈ links p then pr p / ((links p).card : ℚ) else 0).sum := by
    apply List.sum_nonneg
    intro x hx
    obtain ⟨q, hq, rfl⟩ := List.mem_map.1 hx
    by_cases hm : page ∈ links q
    · simpa [hm] using div_nonneg (hpr q hq) (Nat.cast_nonneg _)
    · simp [hm]
  nlinarith

theorem pr_step_nonneg {V : Type} [DecidableEq V] (keys : List V)
    (links : V → Finset V) (d : ℚ) (pr : V → ℚ) (hd0 : 0 ≤ d) (hd1 : d ≤ 1)
    (hpr : ∀ q ∈ keys, 0 ≤ pr q) : ∀ page, 0 ≤ pr_step keys links d pr page := by
  intro page
  have hfloor : (0 : ℚ) ≤ (1 - d) / (keys.length : ℚ) :=
    div_nonneg (by linarith) (Nat.cast_nonneg _)
  exact le_trans hfloor (pr_step_floor keys links d pr hd0 hpr page)

theorem pr_loop_floor {V : Type} [DecidableEq V] (keys : List V)
    (links : V → Finset V) (d : ℚ) (hd0 : 0 ≤ d) (hd1 : d ≤ 1) :
    ∀ (fuel : ℕ) (pr res : V → ℚ), (∀ q ∈ keys, 0 ≤ pr q) →
      pr_loop keys links d fuel pr = some res →
      ∀ page, (1 - d) / (keys.length : ℚ) ≤ res page := by
  intro fuel
  induction fuel with
  | zero => intro pr res _ h; exact absurd h (by simp [pr_loop])
  | succ fuel ih =>
      intro pr res hpr h
      simp only [pr_loop] at h
      split_ifs at h with htest
      · cases h
        exact pr_step_floor keys links d pr hd0 hpr
      · exact ih (pr_step keys links d pr) res
          (fun q _ => pr_step_nonneg keys links d pr hd0 hd1 hpr q) h

/-- C10: on a non-empty graph with damping factor in the open unit interval,
every value returned by iterate_pagerank is at least the damping floor
(1-d)/N, hence strictly positive. -/
theorem iterate_pagerank_values_positive {V : Type} [DecidableEq V]
    (g : Graph V) (d : ℚ) (hne : g.keys ≠ []) (hd0 : 0 < d) (hd1 : d < 1)
    (fuel : ℕ) (res : Dict V ℚ)
    (hres : iterate_pagerank g d fuel = some res) :
    ∀ p ∈ res.keys,
      (1 - d) / (g.keys.length : ℚ) ≤ res.val p ∧ 0 < res.val p := by
  simp only [iterate_pagerank] at hres
  have hk : (normalize g).keys = g.keys := rfl
  rw [hk] at hres
  cases h : pr_loop g.keys ((normalize g).links) d fuel
      (fun _ => 1 / (g.keys.length : ℚ)) with
  | none => rw [h] at hres; exact absurd hres (by simp)
  | some prres =>
      rw [h, Option.map_some'] at hres
      cases hres
      intro p _
      have hinit : ∀ q ∈ g.keys, (0 : ℚ) ≤ 1 / (g.keys.length : ℚ) :=
        fun q _ => div_nonneg zero_le_one (Nat.cast_nonneg _)
      have hfloor := pr_loop_floor g.keys ((normalize g).links) d hd0.le hd1.le
        fuel _ prres hinit h p
      have hN : (0 : ℚ) < (g.keys.length : ℚ) := by
        exact_mod_cast List.length_pos.2 hne
      exact ⟨hfloor, lt_of_lt_of_le (div_pos (by linarith) hN) hfloor⟩

theorem iterate_pagerank_values_positive_witness :
    g2.keys ≠ [] ∧ ((0 : ℚ) < 17 / 20 ∧ (17 : ℚ) / 20 < 1) ∧
      ∃ res : Dict ℕ ℚ, iterate_pagerank g2 (17 / 20) 1 = some res ∧
        ∀ p ∈ res.keys,
          (1 - 17 / 20) / (g2.keys.length : ℚ) ≤ res.val p ∧ 0 < res.val p := by
  refine ⟨by decide, ⟨by norm_num, by norm_num⟩, ?_⟩
  have hsome : (iterate_pagerank g2 (17 / 20) 1).isSome := by
    simp [iterate_pagerank, pr_loop, pr_step, maxDiff, normalize, g2]
    norm_num [abs_le]
  obtain ⟨res, hres⟩ := Option.isSome_iff_exists.1 hsome
  exact ⟨res, hres, iterate_pagerank_values_positive g2 (17 / 20) (by decide)
    (by norm_num) (by norm_num) 1 res hres⟩



theorem normalize_card_ne_zero {V : Type} [DecidableEq V] (g : Graph V)
    (hne : g.keys ≠ []) : ∀ q, ((normalize g).links q).card ≠ 0 := by
  intro q
  unfold normalize
  dsimp only
  by_cases hc : (g.links q).card = 0
  · rw [if_pos hc]
    have hmem : g.keys.toFinset.Nonempty := by
      obtain ⟨a, ha⟩ := List.exists_mem_of_ne_nil g.keys hne
      exact ⟨a, List.mem_toFinset.2 ha⟩
    exact Finset.card_ne_zero.2 hmem
  · rw [if_neg hc]
    exact hc

theorem pr_step_sub {V : Type} [DecidableEq V] (keys : List V)
    (links : V → Finset V) (d : ℚ) (hnd : keys.Nodup) (pr1 pr2 : V → ℚ)
    (page : V) :
    pr_step keys links d pr1 page - pr_step keys links d pr2 page =
      d * ∑ q in keys.toFinset,
        (if page ∈ links q then (pr1 q - pr2 q) / ((links q).card : ℚ)
          else 0) := by
  unfold pr_step
  rw [list_sum_map_eq_finset_sum keys hnd, list_sum_map_eq_finset_sum keys hnd]
  have hsub : ∑ q in keys.toFinset,
        (if page ∈ links q then pr1 q / ((links q).card : ℚ) else 0) -
      ∑ q in keys.toFinset,
        (if page ∈ links q then pr2 q / ((links q).card : ℚ) else 0) =
      ∑ q in keys.toFinset,
        (if page ∈ links q then (pr1 q - pr2 q) / ((links q).card : ℚ)
          else 0) := by
    rw [← Finset.sum_sub_distrib]
    refine Finset.sum_congr rfl fun q _ => ?_
    by_cases hm : page ∈ links q
    · simp [hm, sub_div]
    · simp [hm]
  rw [← hsub]
  ring

theorem l1_contract {V : Type} [DecidableEq V] (keys : List V)
    (links : V → Finset V) (d : ℚ) (hnd : keys.Nodup) (hd0 : 0 ≤ d)
    (hLq : ∀ q ∈ keys, (links q).card ≠ 0) (pr1 pr2 : V → ℚ) :
    l1Diff keys (pr_step keys links d pr1) (pr_step keys links d pr2) ≤
      d * l1Diff keys pr1 pr2 := by
  unfold l1Diff
  have hbound : ∀ p,
      |pr_step keys links d pr1 p - pr_step keys links d pr2 p| ≤
        d * ∑ q in keys.toFinset,
          (if p ∈ links q then |pr1 q - pr2 q| / ((links q).card : ℚ)
            else 0) := by
    intro p
    rw [pr_step_sub keys links d hnd pr1 pr2 p, abs_mul, abs_of_nonneg hd0]
    refine mul_le_mul_of_nonneg_left ?_ hd0
    calc |∑ q in keys.toFinset,
          (if p ∈ links q then (pr1 q - pr2 q) / ((links q).card : ℚ)
            else 0)| ≤
        ∑ q in keys.toFinset,
          |if p ∈ links q then (pr1 q - pr2 q) / ((links q).card : ℚ)
            else 0| := Finset.abs_sum_le_sum_abs _ _
      _ = ∑ q in keys.toFinset,
          (if p ∈ links q then |pr1 q - pr2 q| / ((links q).card : ℚ)
            else 0) := by
          refine Finset.sum_congr rfl fun q _ => ?_
          by_cases hm : p ∈ links q
          · simp [hm, abs_div, Nat.abs_cast]
          · simp [hm]
  calc ∑ p in keys.toFinset,
        |pr_step keys links d pr1 p - pr_step keys links d pr2 p| ≤
      ∑ p in keys.toFinset, d * ∑ q in keys.toFinset,
        (if p ∈ links q then |pr1 q - pr2 q| / ((links q).card : ℚ)
          else 0) := Finset.sum_le_sum fun p _ => hbound p
    _ = d * ∑ p in keys.toFinset, ∑ q in keys.toFinset,
        (if p ∈ links q then |pr1 q - pr2 q| / ((links q).card : ℚ)
          else 0) := by rw [← Finset.mul_sum]
    _ = d * ∑ q in keys.toFinset, ∑ p in keys.toFinset,
        (if p ∈ links q then |pr1 q - pr2 q| / ((links q).card : ℚ)
          else 0) := by rw [Finset.sum_comm]
    _ ≤ d * ∑ q in keys.toFinset, |pr1 q - pr2 q| := by
        refine mul_le_mul_of_nonneg_left (Finset.sum_le_sum fun q hq => ?_) hd0
        have hqk : q ∈ keys := List.mem_toFinset.1 hq
        have hLQ : (((links q).card : ℚ)) ≠ 0 := by exact_mod_cast hLq q hqk
        have hc0 : (0 : ℚ) ≤ |pr1 q - pr2 q| / ((links q).card : ℚ) :=
          div_nonneg (abs_nonneg _) (Nat.cast_nonneg _)
        rw [← Finset.sum_filter, Finset.sum_const, nsmul_eq_mul]
        have hsub : keys.toFinset.filter (fun p => p ∈ links q) ⊆ links q :=
          fun x hx => (Finset.mem_filter.1 hx).2
        have hcardle :
            (((keys.toFinset.filter (fun p => p ∈ links q)).card : ℚ)) ≤
              (((links q).card : ℚ)) := by
          exact_mod_cast Finset.card_le_card hsub
        calc ((keys.toFinset.filter (fun p => p ∈ links q)).card : ℚ) *
              (|pr1 q - pr2 q| / ((links q).card : ℚ)) ≤
            ((links q).card : ℚ) * (|pr1 q - pr2 q| / ((links q).card : ℚ)) :=
              mul_le_mul_of_nonneg_right hcardle hc0
          _ = |pr1 q - pr2 q| := by rw [mul_comm, div_mul_cancel₀ _ hLQ]

theorem l1_rounds_bound {V : Type} [DecidableEq V] (keys : List V)
    (links : V → Finset V) (d : ℚ) (hnd : keys.Nodup) (hd0 : 0 ≤ d)
    (hLq : ∀ q ∈ keys, (links q).card ≠ 0) (pr : V → ℚ) :
    ∀ k : ℕ, l1Diff keys ((pr_step keys links d)^[k] pr)
        ((pr_step keys links d)^[k + 1] pr) ≤
      d ^ k * l1Diff keys pr (pr_step keys links d pr) := by
  intro k
  induction k with
  | zero => simp
  | succ k ih =>
      rw [Function.iterate_succ_apply' (pr_step keys links d) k pr,
        Function.iterate_succ_apply' (pr_step keys links d) (k + 1) pr]
      calc l1Diff keys (pr_step keys links d ((pr_step keys links d)^[k] pr))
            (pr_step keys links d ((pr_step keys links d)^[k + 1] pr)) ≤
          d * l1Diff keys ((pr_step keys links d)^[k] pr)
            ((pr_step keys links d)^[k + 1] pr) :=
            l1_contract keys links d hnd hd0 hLq _ _
        _ ≤ d * (d ^ k * l1Diff keys pr (pr_step keys links d pr)) :=
            mul_le_mul_of_nonneg_left ih hd0
        _ = d ^ (k + 1) * l1Diff keys pr (pr_step keys links d pr) := by ring

theorem foldr_max_le_sum :
    ∀ l : List ℚ, (∀ x ∈ l, 0 ≤ x) → l.foldr max 0 ≤ l.sum := by
  intro l
  induction l with
  | nil => simp
  | cons a t ih =>
      intro h
      have ht : ∀ x ∈ t, 0 ≤ x := fun x hx => h x (List.mem_cons_of_mem a hx)
      have hsum : 0 ≤ t.sum := List.sum_nonneg ht
      have ha : 0 ≤ a := h a (List.mem_cons_self a t)
      simp only [List.foldr_cons, List.sum_cons]
      exact max_le (by linarith) (by linarith [ih ht])

theorem maxDiff_le_l1 {V : Type} [DecidableEq V] (keys : List V)
    (hnd : keys.Nodup) (pr1 pr2 : V → ℚ) :
    maxDiff keys pr1 pr2 ≤ l1Diff keys pr1 pr2 := by
  unfold maxDiff l1Diff
  calc (keys.map fun p => |pr1 p - pr2 p|).foldr max 0 ≤
      (keys.map fun p => |pr1 p - pr2 p|).sum := by
        refine foldr_max_le_sum _ fun x hx => ?_
        obtain ⟨q, _, rfl⟩ := List.mem_map.1 hx
        exact abs_nonneg _
    _ = ∑ p in keys.toFinset, |pr1 p - pr2 p| :=
        list_sum_map_eq_finset_sum keys hnd _

theorem pr_loop_reaches {V : Type} [DecidableEq V] (keys : List V)
    (links : V → Finset V) (d : ℚ) :
    ∀ (k : ℕ) (pr : V → ℚ),
      maxDiff keys ((pr_step keys links d)^[k] pr)
        ((pr_step keys links d)^[k + 1] pr) ≤ 1 / 1000 →
      (pr_loop keys links d (k + 1) pr).isSome := by
  intro k
  induction k with
  | zero =>
      intro pr h
      simp only [Function.iterate_zero_apply, zero_add,
        Function.iterate_one] at h
      show (if maxDiff keys pr (pr_step keys links d pr) ≤ 1 / 1000 then
        some (pr_step keys links d pr)
        else pr_loop keys links d 0 (pr_step keys links d pr)).isSome
      rw [if_pos h]
      rfl
  | succ k ih =>
      intro pr h
      show (if maxDiff keys pr (pr_step keys links d pr) ≤ 1 / 1000 then
        some (pr_step keys links d pr)
        else pr_loop keys links d (k + 1) (pr_step keys links d pr)).isSome
      split_ifs with htest
      · rfl
      · apply ih (pr_step keys links d pr)
        rw [Function.iterate_succ_apply, Function.iterate_succ_apply] at h
        exact h

theorem pr_loop_terminates {V : Type} [DecidableEq V] (keys : List V)
    (links : V → Finset V) (d : ℚ) (pr : V → ℚ) (hnd : keys.Nodup)
    (hd0 : 0 < d) (hd1 : d < 1)
    (hLq : ∀ q ∈ keys, (links q).card ≠ 0) :
    ∃ fuel, (pr_loop keys links d fuel pr).isSome := by
  have hC0 : 0 ≤ l1Diff keys pr (pr_step keys links d pr) :=
    Finset.sum_nonneg fun p _ => abs_nonneg _
  obtain ⟨k, hk⟩ :
      ∃ k : ℕ, d ^ k * l1Diff keys pr (pr_step keys links d pr) ≤ 1 / 1000 := by
    rcases eq_or_lt_of_le hC0 with hC | hC
    · exact ⟨0, by rw [← hC]; norm_num⟩
    · obtain ⟨k, hk⟩ := exists_pow_lt_of_lt_one
        (div_pos (by norm_num : (0 : ℚ) < 1 / 1000) hC) hd1
      exact ⟨k, le_of_lt ((lt_div_iff₀ hC).1 hk)⟩
  refine ⟨k + 1, pr_loop_reaches keys links d k pr ?_⟩
  exact le_trans (maxDiff_le_l1 keys hnd _ _)
    (le_trans (l1_rounds_bound keys links d hnd hd0.le hLq pr k) hk)

/-- C5: on a non-empty graph with damping factor strictly between zero and
one, the convergence loop of iterate_pagerank terminates: some finite fuel
makes it return a result. -/
theorem iterate_pagerank_terminates {V : Type} [DecidableEq V] (g : Graph V)
    (d : ℚ) (hnd : g.keys.Nodup) (hne : g.keys ≠ []) (hd0 : 0 < d)
    (hd1 : d < 1) : ∃ fuel, (iterate_pagerank g d fuel).isSome := by
  obtain ⟨fuel, hf⟩ := pr_loop_terminates g.keys ((normalize g).links) d
    (fun _ => 1 / (g.keys.length : ℚ)) hnd hd0 hd1
    (fun q _ => normalize_card_ne_zero g hne q)
  exact ⟨fuel, by simpa [iterate_pagerank] using hf⟩

theorem iterate_pagerank_terminates_witness :
    g2.keys.Nodup ∧ g2.keys ≠ [] ∧
      ((0 : ℚ) < 17 / 20 ∧ (17 : ℚ) / 20 < 1) ∧
      ∃ fuel, (iterate_pagerank g2 (17 / 20) fuel).isSome :=
  ⟨by decide, by decide, ⟨by norm_num, by norm_num⟩,
    iterate_pagerank_terminates g2 (17 / 20) (by decide) (by decide)
      (by norm_num) (by norm_num)⟩

/-- C7 (counterexample): the per-round maximum absolute delta of
iterate_pagerank is not monotonically non-increasing.  On the seven-page
corpus g7 with damping factor 17/20, the first round's max delta exceeds the
convergence threshold (so the loop continues), and the second round's max
delta is strictly larger than the first round's. -/
theorem maxdelta_not_monotone_on_g7 :
    1 / 1000 < maxDiff g7.keys (pr_rounds g7 (17 / 20) 0)
        (pr_rounds g7 (17 / 20) 1) ∧
    maxDiff g7.keys (pr_rounds g7 (17 / 20) 0) (pr_rounds g7 (17 / 20) 1) <
      maxDiff g7.keys (pr_rounds g7 (17 / 20) 1) (pr_rounds g7 (17 / 20) 2) := by
  constructor
  · norm_num [pr_rounds, pr_step, maxDiff, normalize, g7, abs_of_pos]
  · norm_num [pr_rounds, pr_step, maxDiff, normalize, g7, abs_of_pos]

/-- C7 (amended): what does hold for every non-empty graph and damping factor
strictly between zero and one is that the per-round deltas of
iterate_pagerank are monotonically non-increasing in the one-norm (the sum
over pages of the absolute difference): each round's one-norm delta is at
most d times the previous round's, in particular at most the previous
round's.  The maximum (infinity-norm) delta of the claim need not be
monotone. -/
theorem l1_delta_nonincreasing {V : Type} [DecidableEq V] (g : Graph V)
    (d : ℚ) (hnd : g.keys.Nodup) (hne : g.keys ≠ []) (hd0 : 0 < d)
    (hd1 : d < 1) :
    ∀ k : ℕ,
      l1Diff g.keys (pr_rounds g d (k + 1)) (pr_rounds g d (k + 2)) ≤
        d * l1Diff g.keys (pr_rounds g d k) (pr_rounds g d (k + 1)) ∧
      l1Diff g.keys (pr_rounds g d (k + 1)) (pr_rounds g d (k + 2)) ≤
        l1Diff g.keys (pr_rounds g d k) (pr_rounds g d (k + 1)) := by
  intro k
  have hLq : ∀ q ∈ g.keys, ((normalize g).links q).card ≠ 0 :=
    fun q _ => normalize_card_ne_zero g hne q
  have e1 : pr_rounds g d (k + 1) =
      pr_step g.keys ((normalize g).links) d (pr_rounds g d k) :=
    Function.iterate_succ_apply' _ k _
  have e2 : pr_rounds g d (k + 2) =
      pr_step g.keys ((normalize g).links) d (pr_rounds g d (k + 1)) :=
    Function.iterate_succ_apply' _ (k + 1) _
  have hcon := l1_contract g.keys ((normalize g).links) d hnd hd0.le hLq
    (pr_rounds g d k) (pr_rounds g d (k + 1))
  rw [← e1, ← e2] at hcon
  refine ⟨hcon, le_trans hcon ?_⟩
  have hl0 : 0 ≤ l1Diff g.keys (pr_rounds g d k) (pr_rounds g d (k + 1)) :=
    Finset.sum_nonneg fun p _ => abs_nonneg _
  nlinarith

theorem l1_delta_nonincreasing_witness :
    g2.keys.Nodup ∧ g2.keys ≠ [] ∧
      ((0 : ℚ) < 17 / 20 ∧ (17 : ℚ) / 20 < 1) ∧
      ∀ k : ℕ,
        l1Diff g2.keys (pr_rounds g2 (17 / 20) (k + 1))
            (pr_rounds g2 (17 / 20) (k + 2)) ≤
          17 / 20 * l1Diff g2.keys (pr_rounds g2 (17 / 20) k)
            (pr_rounds g2 (17 / 20) (k + 1)) ∧
        l1Diff g2.keys (pr_rounds g2 (17 / 20) (k + 1))
            (pr_rounds g2 (17 / 20) (k + 2)) ≤
          l1Diff g2.keys (pr_rounds g2 (17 / 20) k)
            (pr_rounds g2 (17 / 20) (k + 1)) :=
  ⟨by decide, by decide, ⟨by norm_num, by norm_num⟩,
    l1_delta_nonincreasing g2 (17 / 20) (by decide) (by decide)
      (by norm_num) (by norm_num)⟩

end PageRank
